import Mathlib

/-!
# lab7.c : driver of the AES accelerator over SPI

Shallow embedding of `src/lab7.c` and the properties of its handshake.

* `char` values are bytes `0..255` (`Fin 256`); the driver never does
  arithmetic on them.
* The three primitives of `easypio.h` that `encrypt` calls
  (`digitalWrite`, `digitalRead`, `spiSendReceive`) are not part of the
  source file; they are a parameter, `Transport`, a deterministic machine
  over an arbitrary state type.
* `encrypt` contains an unbounded `while`, so it is embedded as a step
  function on configurations (`stepWith`, `step`, `run`); a configuration
  carries the three buffers, the loop counter, the transport state and two
  logs: the transport events and the buffer accesses.
-/

namespace Lab7

/-- One `char`. -/
abbrev Byte := Fin 256

/-- Line 19: the pin of the LOAD line. -/
def LOAD_PIN : Nat := 23

/-- Line 20: the pin of the DONE line. -/
def DONE_PIN : Nat := 24

/-- Lines 23-24: the key of the test case. -/
def key : List Byte :=
  [0x2B, 0x7E, 0x15, 0x16, 0x28, 0xAE, 0xD2, 0xA6,
   0xAB, 0xF7, 0x15, 0x88, 0x09, 0xCF, 0x4F, 0x3C]

/-- Lines 26-27: the plaintext of the test case. -/
def plaintext : List Byte :=
  [0x32, 0x43, 0xF6, 0xA8, 0x88, 0x5A, 0x30, 0x8D,
   0x31, 0x31, 0x98, 0xA2, 0xE0, 0x37, 0x07, 0x34]

/-- Lines 29-30: the expected ciphertext of the test case. -/
def ct : List Byte :=
  [0x39, 0x25, 0x84, 0x1D, 0x02, 0xDC, 0x09, 0xFB,
   0xDC, 0x11, 0x85, 0x97, 0x19, 0x6A, 0x0B, 0x32]

/-- The transport primitives of `easypio.h` used by `encrypt`, as a
deterministic machine on a state `σ`: `void digitalWrite(int pin, int val)`,
`int digitalRead(int pin)` and `char spiSendReceive(char send)`. -/
structure Transport (σ : Type) where
  digitalWrite : σ → Nat → Int → σ
  digitalRead : σ → Nat → Int × σ
  spiSendReceive : σ → Byte → Byte × σ

/-- The statement of `encrypt` that issued a byte exchange: line 96
(plaintext loop), line 100 (key loop) or line 108 (read loop). -/
inductive Site where
  | plain
  | key
  | read
  deriving DecidableEq, Repr

/-- A transport operation together with its result. -/
inductive Event where
  | write (pin : Nat) (val : Int)
  | poll (pin : Nat) (val : Int)
  | xchg (site : Site) (send recv : Byte)
  deriving DecidableEq, Repr

/-- A transport operation as issued by the driver (results erased). -/
inductive Op where
  | write (pin : Nat) (val : Int)
  | poll (pin : Nat)
  | xchg (site : Site) (send : Byte)
  deriving DecidableEq, Repr

/-- The operation of an event. -/
def Event.op : Event → Op
  | .write p v => .write p v
  | .poll p _ => .poll p
  | .xchg s b _ => .xchg s b

/-- The byte received by an event, when it is a byte exchange. -/
def Event.recv : Event → Option Byte
  | .xchg _ _ r => some r
  | _ => none

/-- Whether the event is a byte exchange. -/
def Event.isXchg : Event → Bool
  | .xchg _ _ _ => true
  | _ => false

/-- Whether the event is a pin write. -/
def Event.isWrite : Event → Bool
  | .write _ _ => true
  | _ => false

/-- Whether the event is a byte exchange issued at the given statement. -/
def Event.isAt (s : Site) : Event → Bool
  | .xchg t _ _ => decide (t = s)
  | _ => false

/-- The three buffers `encrypt` is given pointers to. -/
inductive Buf where
  | key
  | plaintext
  | cyphertext
  deriving DecidableEq, Repr

/-- One buffer access: which buffer, whether it is a store, which index. -/
structure Access where
  buf : Buf
  isStore : Bool
  idx : Nat
  deriving DecidableEq, Repr

/-- Control points of `encrypt`. `fault` is the undefined behaviour of an
access outside a buffer; `done` is the return. -/
inductive PC where
  | loadHigh   -- line 93
  | sendPlain  -- lines 95-97
  | sendKey    -- lines 99-101
  | loadLow    -- line 103
  | waitDone   -- line 105
  | readCt     -- lines 107-109
  | done       -- line 110
  | fault
  deriving DecidableEq, Repr

/-- A configuration of one call of `encrypt`. -/
structure Config (σ : Type) where
  pc : PC
  i : Nat
  key : List Byte
  plaintext : List Byte
  cyphertext : List Byte
  hw : σ
  trace : List Event
  acc : List Access

/-- The configuration at the call `encrypt(key, plaintext, cyphertext)`. -/
def enter {σ : Type} (key plaintext cyphertext : List Byte) (s : σ) : Config σ :=
  { pc := .loadHigh, i := 0, key := key, plaintext := plaintext,
    cyphertext := cyphertext, hw := s, trace := [], acc := [] }

/-- One step of `encrypt` (lines 89-110). Each step performs at most one
transport operation. The byte sent at line 108 is the parameter `d`; the
source sends the literal `0` (see `step`), and `d` is there to compare the
call as written with one that sends another byte while reading. -/
def stepWith {σ : Type} (d : Byte) (T : Transport σ) (c : Config σ) : Config σ :=
  match c.pc with
  | .loadHigh =>
      -- digitalWrite(LOAD_PIN, 1); then `i = 0` of the first loop
      { c with pc := .sendPlain, i := 0,
               hw := T.digitalWrite c.hw LOAD_PIN 1,
               trace := c.trace ++ [.write LOAD_PIN 1] }
  | .sendPlain =>
      if c.i < 16 then
        -- spiSendReceive(plaintext[i]); i++
        match c.plaintext[c.i]? with
        | none => { c with pc := .fault, acc := c.acc ++ [⟨.plaintext, false, c.i⟩] }
        | some b =>
            let r := T.spiSendReceive c.hw b
            { c with i := c.i + 1, hw := r.2,
                     trace := c.trace ++ [.xchg .plain b r.1],
                     acc := c.acc ++ [⟨.plaintext, false, c.i⟩] }
      else
        -- loop exit; `i = 0` of the second loop
        { c with pc := .sendKey, i := 0 }
  | .sendKey =>
      if c.i < 16 then
        -- spiSendReceive(key[i]); i++
        match c.key[c.i]? with
        | none => { c with pc := .fault, acc := c.acc ++ [⟨.key, false, c.i⟩] }
        | some b =>
            let r := T.spiSendReceive c.hw b
            { c with i := c.i + 1, hw := r.2,
                     trace := c.trace ++ [.xchg .key b r.1],
                     acc := c.acc ++ [⟨.key, false, c.i⟩] }
      else
        { c with pc := .loadLow }
  | .loadLow =>
      -- digitalWrite(LOAD_PIN, 0);
      { c with pc := .waitDone,
               hw := T.digitalWrite c.hw LOAD_PIN 0,
               trace := c.trace ++ [.write LOAD_PIN 0] }
  | .waitDone =>
      -- while (!digitalRead(DONE_PIN));
      let r := T.digitalRead c.hw DONE_PIN
      if r.1 = 0 then
        { c with hw := r.2, trace := c.trace ++ [.poll DONE_PIN r.1] }
      else
        -- `i = 0` of the third loop
        { c with pc := .readCt, i := 0, hw := r.2,
                 trace := c.trace ++ [.poll DONE_PIN r.1] }
  | .readCt =>
      if c.i < 16 then
        -- cyphertext[i] = spiSendReceive(0); i++
        let r := T.spiSendReceive c.hw d
        if c.i < c.cyphertext.length then
          { c with i := c.i + 1, hw := r.2,
                   cyphertext := c.cyphertext.set c.i r.1,
                   trace := c.trace ++ [.xchg .read d r.1],
                   acc := c.acc ++ [⟨.cyphertext, true, c.i⟩] }
        else
          { c with pc := .fault, hw := r.2,
                   trace := c.trace ++ [.xchg .read d r.1],
                   acc := c.acc ++ [⟨.cyphertext, true, c.i⟩] }
      else
        { c with pc := .done }
  | .done => c
  | .fault => c

/-- One step of `encrypt` as written: line 108 sends `0`. -/
def step {σ : Type} (T : Transport σ) (c : Config σ) : Config σ :=
  stepWith 0 T c

/-- The configuration after `n` steps. -/
def runWith {σ : Type} (d : Byte) (T : Transport σ) : Nat → Config σ → Config σ
  | 0, c => c
  | n + 1, c => stepWith d T (runWith d T n c)

/-- The configuration after `n` steps of `encrypt` as written. -/
def run {σ : Type} (T : Transport σ) (n : Nat) (c : Config σ) : Config σ :=
  runWith 0 T n c

/-- Transport state after exchanging the given bytes in order. -/
def sendBytes {σ : Type} (T : Transport σ) (s : σ) (bs : List Byte) : σ :=
  bs.foldl (fun s b => (T.spiSendReceive s b).2) s

/-- The events of exchanging the given bytes in order from state `s`. -/
def xchgEvents {σ : Type} (T : Transport σ) (site : Site) : σ → List Byte → List Event
  | _, [] => []
  | s, b :: bs =>
      .xchg site b (T.spiSendReceive s b).1 :: xchgEvents T site (T.spiSendReceive s b).2 bs

/-- The bytes received when exchanging the given bytes in order from `s`. -/
def recvBytes {σ : Type} (T : Transport σ) : σ → List Byte → List Byte
  | _, [] => []
  | s, b :: bs => (T.spiSendReceive s b).1 :: recvBytes T (T.spiSendReceive s b).2 bs

/-- Transport state when the loading phase is over: LOAD raised, the
plaintext then the key shifted in, LOAD lowered. -/
def loaded {σ : Type} (T : Transport σ) (key plaintext : List Byte) (s : σ) : σ :=
  T.digitalWrite
    (sendBytes T (sendBytes T (T.digitalWrite s LOAD_PIN 1) plaintext) key) LOAD_PIN 0

/-- Transport state after `n` reads of the DONE line from state `s`. -/
def pollState {σ : Type} (T : Transport σ) (s : σ) : Nat → σ
  | 0 => s
  | n + 1 => (T.digitalRead (pollState T s n) DONE_PIN).2

/-- Value of the `(n+1)`-th read of the DONE line from state `s`. -/
def pollVal {σ : Type} (T : Transport σ) (s : σ) (n : Nat) : Int :=
  (T.digitalRead (pollState T s n) DONE_PIN).1

/-- From state `s` the DONE line reads false `k` times and then true. -/
def DoneAfter {σ : Type} (T : Transport σ) (s : σ) (k : Nat) : Prop :=
  (∀ m, m < k → pollVal T s m = 0) ∧ pollVal T s k ≠ 0

instance {σ : Type} (T : Transport σ) (s : σ) (k : Nat) : Decidable (DoneAfter T s k) := by
  unfold DoneAfter; infer_instance

/-- The events of the first `n` reads of the DONE line from state `s`. -/
def pollEvents {σ : Type} (T : Transport σ) (s : σ) (n : Nat) : List Event :=
  (List.range n).map (fun m => Event.poll DONE_PIN (pollVal T s m))

/-- The bytes received by the byte exchanges of a trace, in order. -/
def received (t : List Event) : List Byte :=
  t.filterMap Event.recv

/-- The events of the whole loading phase (lines 93-103) from state `s`. -/
def loadTrace {σ : Type} (T : Transport σ) (key plaintext : List Byte) (s : σ) : List Event :=
  .write LOAD_PIN 1 ::
    (xchgEvents T .plain (T.digitalWrite s LOAD_PIN 1) plaintext ++
      xchgEvents T .key (sendBytes T (T.digitalWrite s LOAD_PIN 1) plaintext) key) ++
    [.write LOAD_PIN 0]

/-- The buffer accesses of the loading phase: `plaintext[0..15]`, then `key[0..15]`. -/
def loadAcc : List Access :=
  (List.range 16).map (fun n => ⟨.plaintext, false, n⟩) ++
    (List.range 16).map (fun n => ⟨.key, false, n⟩)

/-- Transport state at the start of the read loop when DONE read true at
the `(k+1)`-th read. -/
def ready {σ : Type} (T : Transport σ) (key plaintext : List Byte) (s : σ) (k : Nat) : σ :=
  pollState T (loaded T key plaintext s) (k + 1)

/-- Whether the event is a read of a pin. -/
def Event.isPoll : Event → Bool
  | .poll _ _ => true
  | _ => false

/-- A transport whose serial link is looped back (each exchange returns
the byte sent) and whose DONE line, once LOAD is lowered, reads false
twice and then true. The state counts the false reads left. -/
def loopback : Transport Nat where
  digitalWrite := fun s pin val => if pin = LOAD_PIN ∧ val = 0 then 2 else s
  digitalRead := fun s _ => (if s = 0 then 1 else 0, s - 1)
  spiSendReceive := fun s b => (b, s)

/-- Position of an event in the order of the protocol: LOAD raised (0),
plaintext byte (1), key byte (2), LOAD lowered (3), DONE read (4),
ciphertext byte (5). -/
def Event.phase : Event → Nat
  | .write _ v => if v = 1 then 0 else 3
  | .xchg .plain _ _ => 1
  | .xchg .key _ _ => 2
  | .poll _ _ => 4
  | .xchg .read _ _ => 5

/-- Position in the order of the protocol of the operation the next step
issues at a control point. -/
def PC.phase : PC → Nat
  | .loadHigh => 0
  | .sendPlain => 1
  | .sendKey => 2
  | .loadLow => 3
  | .waitDone => 4
  | .readCt => 5
  | .done => 5
  | .fault => 5

/-- The trace of a configuration is ordered by phase, holds nothing later
than the current control point, and starts with the raising of LOAD. -/
def Ordered {σ : Type} (c : Config σ) : Prop :=
  c.trace.Pairwise (fun a b => a.phase ≤ b.phase) ∧
  (∀ e ∈ c.trace, e.phase ≤ c.pc.phase) ∧
  ((c.pc = .loadHigh ∧ c.trace = []) ∨
    (c.pc ≠ .loadHigh ∧ ∃ rest, c.trace = .write LOAD_PIN 1 :: rest))

/-- The control point is after the polling loop (or the call faulted). -/
def PC.pastWait : PC → Bool
  | .readCt => true
  | .done => true
  | .fault => true
  | _ => false

/-- The three buffers hold 16 bytes, no access faulted and every logged
access has an index below 16. -/
def InBounds {σ : Type} (c : Config σ) : Prop :=
  c.key.length = 16 ∧ c.plaintext.length = 16 ∧ c.cyphertext.length = 16 ∧
    c.pc ≠ .fault ∧ ∀ a ∈ c.acc, a.idx < 16

/-- A transport whose DONE line never reads true; its serial link
returns `0xFF`. -/
def silent : Transport Unit where
  digitalWrite := fun s _ _ => s
  digitalRead := fun s _ => (0, s)
  spiSendReceive := fun s _ => (0xFF, s)

/-! ## The accelerator

The accelerator is hardware outside `lab7.c`. The model below follows the
description of its handshake in the specification and FIPS-197 for the
transform. -/

/-- Multiplication by `x` in GF(2^8) modulo `x^8 + x^4 + x^3 + x + 1` (FIPS-197 §4.2.1). -/
def xtime (b : Nat) : Nat :=
  if b % 256 < 128 then (2 * b) % 256 else ((2 * b) % 256) ^^^ 0x1b

/-- Multiplication in GF(2^8): shift-and-add over the low `n` bits of `b`. -/
def gmulAux : Nat → Nat → Nat → Nat
  | 0, _, _ => 0
  | n + 1, a, b => (if b % 2 = 1 then a else 0) ^^^ gmulAux n (xtime a) (b / 2)

/-- Multiplication in GF(2^8) (FIPS-197 §4.2). -/
def gmul (a b : Nat) : Nat := gmulAux 8 a b

/-- Multiplicative inverse in GF(2^8), with `0` mapped to `0`: `a^254`. -/
def ginv (a : Nat) : Nat :=
  let a2 := gmul a a
  let a4 := gmul a2 a2
  let a8 := gmul a4 a4
  let a16 := gmul a8 a8
  let a32 := gmul a16 a16
  let a64 := gmul a32 a32
  let a128 := gmul a64 a64
  gmul a128 (gmul a64 (gmul a32 (gmul a16 (gmul a8 (gmul a4 a2)))))

/-- Rotation of a byte to the left. -/
def rotl8 (b n : Nat) : Nat := ((b <<< n) ||| (b >>> (8 - n))) % 256

/-- The S-box (FIPS-197 §5.1.1): inverse, then the affine transformation. -/
def sbox (a : Nat) : Nat :=
  let b := ginv a
  b ^^^ rotl8 b 1 ^^^ rotl8 b 2 ^^^ rotl8 b 3 ^^^ rotl8 b 4 ^^^ 0x63

/-- SubBytes (§5.1.1). -/
def subBytes (st : List Nat) : List Nat := st.map sbox

/-- ShiftRows (§5.1.2) on the state in input order (`s[r,c]` at index `r + 4c`). -/
def shiftRows (st : List Nat) : List Nat :=
  (List.range 16).map (fun n => st.getD (4 * ((n / 4 + n % 4) % 4) + n % 4) 0)

/-- One column of MixColumns (§5.1.3). -/
def mixColumn (a0 a1 a2 a3 : Nat) : List Nat :=
  [gmul 2 a0 ^^^ gmul 3 a1 ^^^ a2 ^^^ a3,
   a0 ^^^ gmul 2 a1 ^^^ gmul 3 a2 ^^^ a3,
   a0 ^^^ a1 ^^^ gmul 2 a2 ^^^ gmul 3 a3,
   gmul 3 a0 ^^^ a1 ^^^ a2 ^^^ gmul 2 a3]

/-- MixColumns (§5.1.3) on the state in input order. -/
def mixColumns (st : List Nat) : List Nat :=
  (List.range 4).flatMap (fun c =>
    mixColumn (st.getD (4 * c) 0) (st.getD (4 * c + 1) 0) (st.getD (4 * c + 2) 0)
      (st.getD (4 * c + 3) 0))

/-- AddRoundKey (§5.1.4). -/
def addRoundKey (st rk : List Nat) : List Nat := List.zipWith (· ^^^ ·) st rk

/-- The next round key (KeyExpansion, §5.2, Nk = 4) from the previous one and
the round constant. -/
def nextKey (rk : List Nat) (rc : Nat) : List Nat :=
  let g := fun n => rk.getD n 0
  let w0 := [g 0 ^^^ sbox (g 13) ^^^ rc, g 1 ^^^ sbox (g 14), g 2 ^^^ sbox (g 15),
             g 3 ^^^ sbox (g 12)]
  let w1 := List.zipWith (· ^^^ ·) w0 [g 4, g 5, g 6, g 7]
  let w2 := List.zipWith (· ^^^ ·) w1 [g 8, g 9, g 10, g 11]
  let w3 := List.zipWith (· ^^^ ·) w2 [g 12, g 13, g 14, g 15]
  w0 ++ w1 ++ w2 ++ w3

/-- The rounds of Cipher (§5.1) after the first AddRoundKey: `n` full rounds
and the final round, the round keys being expanded on the way. -/
def aesRounds : Nat → List Nat → List Nat → Nat → List Nat
  | 0, st, rk, rc => addRoundKey (shiftRows (subBytes st)) (nextKey rk rc)
  | n + 1, st, rk, rc =>
      aesRounds n (addRoundKey (mixColumns (shiftRows (subBytes st))) (nextKey rk rc))
        (nextKey rk rc) (xtime rc)

/-- Modelled from the spec: the transform of the accelerator (hardware, not
part of `lab7.c`), AES-128 encryption of one block as in FIPS-197 §5.1
(Nk = 4, Nr = 10), bytes in input order. -/
def aes128 (pt key : List Nat) : List Nat :=
  aesRounds 9 (addRoundKey pt key) key 1

/-- AES-128 on blocks of `char`. -/
def aesBlock (pt key : List Byte) : List Byte :=
  (aes128 (pt.map Fin.val) (key.map Fin.val)).map (fun n => Fin.ofNat n)

/-- State of the accelerator model: the level of the LOAD line, the bytes
shifted in while LOAD was high, the result bytes still to shift out, the
number of reads of DONE that still read false, and whether a result has
been computed. -/
structure Accel where
  load : Bool
  shiftIn : List Byte
  shiftOut : List Byte
  wait : Nat
  valid : Bool
  deriving DecidableEq, Repr

/-- Modelled from the spec: the encryption accelerator behind the transport
(hardware, not part of `lab7.c`). While LOAD is high every exchanged byte is
shifted in and `0` is returned; when LOAD is lowered the core computes
AES-128 of the first 16 bytes shifted in (plaintext) under the next 16 (key);
DONE reads false `latency` times and then true; with LOAD low every exchange
returns the next result byte in index order, whatever byte is sent. -/
def accel (latency : Nat) : Transport Accel where
  digitalWrite := fun a pin val =>
    if pin = LOAD_PIN then
      if val = 0 then
        if a.load then
          { load := false, shiftIn := [],
            shiftOut := aesBlock (a.shiftIn.take 16) ((a.shiftIn.drop 16).take 16),
            wait := latency, valid := true }
        else a
      else { load := true, shiftIn := [], shiftOut := [], wait := 0, valid := false }
    else a
  digitalRead := fun a pin =>
    if pin = DONE_PIN ∧ a.load = false ∧ a.valid = true ∧ a.wait = 0 then (1, a)
    else (0, { a with wait := a.wait - 1 })
  spiSendReceive := fun a b =>
    if a.load then (0, { a with shiftIn := a.shiftIn ++ [b] })
    else (a.shiftOut.headD 0, { a with shiftOut := a.shiftOut.tail })

/-- The accelerator before any session. -/
def Accel.idle : Accel :=
  { load := false, shiftIn := [], shiftOut := [], wait := 0, valid := false }

/-! ## The verification harness -/

/-- The C library `strcmp` on the bytes found from two pointers on: the
difference of the first pair of bytes that differ (as `unsigned char`), `0`
when a terminating zero byte is reached first. A list is the memory readable
from the pointer; `none` when the comparison runs past it. -/
def strcmp : List Byte → List Byte → Option Int
  | a :: as, b :: bs =>
      if a ≠ b then some ((a.val : Int) - (b.val : Int))
      else if a = 0 then some 0
      else strcmp as bs
  | _, _ => none

/-- The conversion `%02x` of one byte. -/
def hex2 (b : Byte) : String :=
  String.mk [Nat.digitChar (b.val / 16), Nat.digitChar (b.val % 16)]

/-- Lines 112-119: `print16`, the text printed; `none` when the 16 bytes are
not all readable. `char` is taken unsigned, as on the ARM target of the
transport library, so that every byte prints as two digits. -/
def print16 (text : List Byte) : Option String :=
  if 16 ≤ text.length then
    some (String.join ((text.take 16).map (fun b => hex2 b ++ " ")) ++ "\n")
  else none

/-- Lines 82-86: the verdict `printall` prints for the computed ciphertext
against the reference `ct`. -/
def verdict (cyphertext ct : List Byte) : Option String :=
  (strcmp cyphertext ct).map
    (fun r => if r = 0 then "\nSuccess!\n" else "\nBummer.  Test failed\n")

/-- Lines 76-87: `printall`, the text printed. The global `ct` it compares
with is the first argument. Each list is the memory readable from the
pointer on. -/
def printall (ct key plaintext cyphertext : List Byte) : Option String :=
  (print16 key).bind (fun k =>
  (print16 plaintext).bind (fun p =>
  (print16 cyphertext).bind (fun c =>
  (print16 ct).bind (fun e =>
  (verdict cyphertext ct).map (fun v =>
    "Key:        " ++ k ++ "Plaintext:  " ++ p ++ "\n" ++
    "Ciphertext: " ++ c ++ "Expected:   " ++ e ++ v)))))

/-! ## Closed forms of the run -/

theorem sendBytes_snoc {σ : Type} (T : Transport σ) (s : σ) (bs : List Byte) (b : Byte) :
    sendBytes T s (bs ++ [b]) = (T.spiSendReceive (sendBytes T s bs) b).2 := by
  simp [sendBytes, List.foldl_append]

theorem sendBytes_append {σ : Type} (T : Transport σ) (s : σ) (as bs : List Byte) :
    sendBytes T s (as ++ bs) = sendBytes T (sendBytes T s as) bs := by
  simp [sendBytes, List.foldl_append]

theorem xchgEvents_snoc {σ : Type} (T : Transport σ) (site : Site) (s : σ)
    (bs : List Byte) (b : Byte) :
    xchgEvents T site s (bs ++ [b])
      = xchgEvents T site s bs ++ [.xchg site b (T.spiSendReceive (sendBytes T s bs) b).1] := by
  induction bs generalizing s with
  | nil => simp [xchgEvents, sendBytes]
  | cons a as ih =>
      have h := ih (T.spiSendReceive s a).2
      simp only [sendBytes] at h
      simp [xchgEvents, h, sendBytes]

theorem recvBytes_snoc {σ : Type} (T : Transport σ) (s : σ) (bs : List Byte) (b : Byte) :
    recvBytes T s (bs ++ [b])
      = recvBytes T s bs ++ [(T.spiSendReceive (sendBytes T s bs) b).1] := by
  induction bs generalizing s with
  | nil => simp [recvBytes, sendBytes]
  | cons a as ih =>
      have h := ih (T.spiSendReceive s a).2
      simp only [sendBytes] at h
      simp [recvBytes, h, sendBytes]

theorem take_succ_snoc (l : List Byte) (j : Nat) (h : j < l.length) :
    l.take (j + 1) = l.take j ++ [l[j]] := by
  rw [List.take_succ, List.getElem?_eq_getElem h]; rfl

theorem runWith_succ {σ : Type} (d : Byte) (T : Transport σ) (n : Nat) (c : Config σ) :
    runWith d T (n + 1) c = stepWith d T (runWith d T n c) := rfl

/-- During the plaintext loop: after `1 + j` steps, `j` plaintext bytes are out. -/
theorem runWith_plain {σ : Type} (d : Byte) (T : Transport σ) (k p c0 : List Byte) (s : σ)
    (hp : p.length = 16) (j : Nat) (hj : j ≤ 16) :
    runWith d T (1 + j) (enter k p c0 s) =
      { pc := .sendPlain, i := j, key := k, plaintext := p, cyphertext := c0,
        hw := sendBytes T (T.digitalWrite s LOAD_PIN 1) (p.take j),
        trace := .write LOAD_PIN 1 :: xchgEvents T .plain (T.digitalWrite s LOAD_PIN 1) (p.take j),
        acc := (List.range j).map (fun n => ⟨.plaintext, false, n⟩) } := by
  induction j with
  | zero => simp [runWith, stepWith, enter, sendBytes, xchgEvents]
  | succ j ih =>
      have hlt : j < p.length := by omega
      have h16 : j < 16 := by omega
      rw [← Nat.add_assoc, runWith_succ, ih (by omega)]
      simp only [stepWith, h16, List.getElem?_eq_getElem hlt, take_succ_snoc p j hlt,
        sendBytes_snoc, xchgEvents_snoc, List.range_succ, if_true, List.map_append,
        List.map_cons, List.map_nil, List.cons_append]

/-- During the key loop: after `18 + j` steps, `j` key bytes are out. -/
theorem runWith_key {σ : Type} (d : Byte) (T : Transport σ) (k p c0 : List Byte) (s : σ)
    (hk : k.length = 16) (hp : p.length = 16) (j : Nat) (hj : j ≤ 16) :
    runWith d T (18 + j) (enter k p c0 s) =
      { pc := .sendKey, i := j, key := k, plaintext := p, cyphertext := c0,
        hw := sendBytes T (sendBytes T (T.digitalWrite s LOAD_PIN 1) p) (k.take j),
        trace := .write LOAD_PIN 1 ::
          (xchgEvents T .plain (T.digitalWrite s LOAD_PIN 1) p ++
            xchgEvents T .key (sendBytes T (T.digitalWrite s LOAD_PIN 1) p) (k.take j)),
        acc := (List.range 16).map (fun n => ⟨.plaintext, false, n⟩) ++
          (List.range j).map (fun n => ⟨.key, false, n⟩) } := by
  induction j with
  | zero =>
      have h := runWith_plain d T k p c0 s hp 16 (le_refl _)
      have ht : p.take 16 = p := List.take_of_length_le (by omega)
      rw [ht] at h
      show stepWith d T (runWith d T (1 + 16) (enter k p c0 s)) = _
      rw [h]
      simp [stepWith, xchgEvents, sendBytes]
  | succ j ih =>
      have hlt : j < k.length := by omega
      have h16 : j < 16 := by omega
      rw [← Nat.add_assoc, runWith_succ, ih (by omega)]
      simp only [stepWith, h16, List.getElem?_eq_getElem hlt, take_succ_snoc k j hlt,
        sendBytes_snoc, xchgEvents_snoc, List.range_succ, if_true, List.map_append,
        List.map_cons, List.map_nil, List.cons_append, List.append_assoc]

/-- After 36 steps the loading phase is over and the driver starts polling. -/
theorem runWith_loaded {σ : Type} (d : Byte) (T : Transport σ) (k p c0 : List Byte) (s : σ)
    (hk : k.length = 16) (hp : p.length = 16) :
    runWith d T 36 (enter k p c0 s) =
      { pc := .waitDone, i := 16, key := k, plaintext := p, cyphertext := c0,
        hw := loaded T k p s, trace := loadTrace T k p s, acc := loadAcc } := by
  have h := runWith_key d T k p c0 s hk hp 16 (le_refl _)
  have ht : k.take 16 = k := List.take_of_length_le (by omega)
  rw [ht] at h
  show stepWith d T (stepWith d T (runWith d T (18 + 16) (enter k p c0 s))) = _
  rw [h]
  simp [stepWith, loaded, loadTrace, loadAcc]

/-- While DONE reads false the driver stays in the polling loop. -/
theorem runWith_wait {σ : Type} (d : Byte) (T : Transport σ) (k p c0 : List Byte) (s : σ)
    (hk : k.length = 16) (hp : p.length = 16) (n : Nat)
    (h0 : ∀ m, m < n → pollVal T (loaded T k p s) m = 0) :
    runWith d T (36 + n) (enter k p c0 s) =
      { pc := .waitDone, i := 16, key := k, plaintext := p, cyphertext := c0,
        hw := pollState T (loaded T k p s) n,
        trace := loadTrace T k p s ++ pollEvents T (loaded T k p s) n, acc := loadAcc } := by
  induction n with
  | zero => simpa [pollState, pollEvents] using runWith_loaded d T k p c0 s hk hp
  | succ n ih =>
      have hv := h0 n (Nat.lt_succ_self n)
      rw [← Nat.add_assoc, runWith_succ, ih (fun m hm => h0 m (Nat.lt_succ_of_lt hm))]
      unfold pollVal at hv
      simp only [stepWith, hv, if_true, pollState, pollEvents, List.range_succ,
        List.map_append, List.map_cons, List.map_nil, List.append_assoc, pollVal]

/-- The first true read of DONE moves the driver to the read loop. -/
theorem runWith_ready {σ : Type} (d : Byte) (T : Transport σ) (k p c0 : List Byte) (s : σ)
    (hk : k.length = 16) (hp : p.length = 16) (n : Nat)
    (hd : DoneAfter T (loaded T k p s) n) :
    runWith d T (37 + n) (enter k p c0 s) =
      { pc := .readCt, i := 0, key := k, plaintext := p, cyphertext := c0,
        hw := ready T k p s n,
        trace := loadTrace T k p s ++ pollEvents T (loaded T k p s) (n + 1),
        acc := loadAcc } := by
  have hv := hd.2
  have e : 37 + n = (36 + n) + 1 := by omega
  rw [e, runWith_succ, runWith_wait d T k p c0 s hk hp n hd.1]
  unfold pollVal at hv
  simp only [stepWith, hv, if_false, pollState, pollEvents, List.range_succ,
    List.map_append, List.map_cons, List.map_nil, List.append_assoc, pollVal, ready]

theorem recvBytes_length {σ : Type} (T : Transport σ) (s : σ) (bs : List Byte) :
    (recvBytes T s bs).length = bs.length := by
  induction bs generalizing s with
  | nil => rfl
  | cons a as ih => simp [recvBytes, ih]

theorem set_append_drop (a c0 : List Byte) (x : Byte) (h : a.length < c0.length) :
    (a ++ c0.drop a.length).set a.length x = (a ++ [x]) ++ c0.drop (a.length + 1) := by
  rw [List.set_append, if_neg (Nat.lt_irrefl _), Nat.sub_self, List.drop_eq_getElem_cons h,
    List.set_cons_zero]
  simp

/-- During the read loop: after `37 + n + j` steps, `j` bytes are stored. -/
theorem runWith_read {σ : Type} (d : Byte) (T : Transport σ) (k p c0 : List Byte) (s : σ)
    (hk : k.length = 16) (hp : p.length = 16) (hc : c0.length = 16) (n : Nat)
    (hd : DoneAfter T (loaded T k p s) n) (j : Nat) (hj : j ≤ 16) :
    runWith d T (37 + n + j) (enter k p c0 s) =
      { pc := .readCt, i := j, key := k, plaintext := p,
        cyphertext := recvBytes T (ready T k p s n) (List.replicate j d) ++ c0.drop j,
        hw := sendBytes T (ready T k p s n) (List.replicate j d),
        trace := loadTrace T k p s ++ pollEvents T (loaded T k p s) (n + 1) ++
          xchgEvents T .read (ready T k p s n) (List.replicate j d),
        acc := loadAcc ++ (List.range j).map (fun n => ⟨.cyphertext, true, n⟩) } := by
  induction j with
  | zero =>
      simpa [recvBytes, sendBytes, xchgEvents] using runWith_ready d T k p c0 s hk hp n hd
  | succ j ih =>
      have h16 : j < 16 := by omega
      have hl : (recvBytes T (ready T k p s n) (List.replicate j d)).length = j := by
        simp [recvBytes_length]
      have hlen : j < (recvBytes T (ready T k p s n) (List.replicate j d) ++ c0.drop j).length := by
        simp [recvBytes_length]; omega
      have hset := set_append_drop (recvBytes T (ready T k p s n) (List.replicate j d)) c0
        (T.spiSendReceive (sendBytes T (ready T k p s n) (List.replicate j d)) d).1
        (by rw [hl]; omega)
      rw [hl] at hset
      rw [← Nat.add_assoc, runWith_succ, ih (by omega)]
      simp only [stepWith, h16, hlen, if_true, hset, List.replicate_succ', sendBytes_snoc,
        xchgEvents_snoc, recvBytes_snoc, List.range_succ, List.map_append, List.map_cons,
        List.map_nil, List.append_assoc]

/-- The configuration in which `encrypt` returns. -/
theorem runWith_done {σ : Type} (d : Byte) (T : Transport σ) (k p c0 : List Byte) (s : σ)
    (hk : k.length = 16) (hp : p.length = 16) (hc : c0.length = 16) (n : Nat)
    (hd : DoneAfter T (loaded T k p s) n) (t : Nat) :
    runWith d T (54 + n + t) (enter k p c0 s) =
      { pc := .done, i := 16, key := k, plaintext := p,
        cyphertext := recvBytes T (ready T k p s n) (List.replicate 16 d),
        hw := sendBytes T (ready T k p s n) (List.replicate 16 d),
        trace := loadTrace T k p s ++ pollEvents T (loaded T k p s) (n + 1) ++
          xchgEvents T .read (ready T k p s n) (List.replicate 16 d),
        acc := loadAcc ++ (List.range 16).map (fun n => ⟨.cyphertext, true, n⟩) } := by
  induction t with
  | zero =>
      have h := runWith_read d T k p c0 s hk hp hc n hd 16 (le_refl _)
      have hdrop : c0.drop 16 = [] := List.drop_of_length_le (by omega)
      rw [hdrop, List.append_nil] at h
      have e : 54 + n + 0 = (37 + n + 16) + 1 := by omega
      rw [e, runWith_succ, h]
      simp [stepWith]
  | succ t ih =>
      rw [← Nat.add_assoc, runWith_succ, ih]
      simp [stepWith]

/-! ## Logs of the closed forms -/

theorem xchgEvents_op {σ : Type} (T : Transport σ) (site : Site) (s : σ) (bs : List Byte) :
    (xchgEvents T site s bs).map Event.op = bs.map (Op.xchg site) := by
  induction bs generalizing s with
  | nil => rfl
  | cons a as ih => simp [xchgEvents, Event.op, ih]

theorem pollEvents_op {σ : Type} (T : Transport σ) (s : σ) (n : Nat) :
    (pollEvents T s n).map Event.op = List.replicate n (Op.poll DONE_PIN) := by
  induction n with
  | zero => rfl
  | succ n ih =>
      simp only [pollEvents] at ih
      simp [pollEvents, List.range_succ, ih, Event.op, List.replicate_succ']

theorem xchgEvents_received {σ : Type} (T : Transport σ) (site : Site) (s : σ)
    (bs : List Byte) : received (xchgEvents T site s bs) = recvBytes T s bs := by
  induction bs generalizing s with
  | nil => rfl
  | cons a as ih =>
      have h := ih (T.spiSendReceive s a).2
      simp only [received] at h
      simp [xchgEvents, recvBytes, received, Event.recv, h]

theorem pollEvents_received {σ : Type} (T : Transport σ) (s : σ) (n : Nat) :
    received (pollEvents T s n) = [] := by
  induction n with
  | zero => rfl
  | succ n ih =>
      simp only [pollEvents, received] at ih
      simp [pollEvents, received, List.range_succ, ih, Event.recv]

theorem xchgEvents_count {σ : Type} (T : Transport σ) (site : Site) (s : σ) (bs : List Byte) :
    (xchgEvents T site s bs).countP Event.isXchg = bs.length ∧
      (xchgEvents T site s bs).countP Event.isWrite = 0 ∧
      (xchgEvents T site s bs).countP Event.isPoll = 0 := by
  induction bs generalizing s with
  | nil => simp [xchgEvents]
  | cons a as ih =>
      have h := ih (T.spiSendReceive s a).2
      simp [xchgEvents, Event.isXchg, Event.isWrite, Event.isPoll, h.1, h.2.1, h.2.2]

theorem pollEvents_count {σ : Type} (T : Transport σ) (s : σ) (n : Nat) :
    (pollEvents T s n).countP Event.isXchg = 0 ∧
      (pollEvents T s n).countP Event.isWrite = 0 ∧
      (pollEvents T s n).countP Event.isPoll = n := by
  induction n with
  | zero => simp [pollEvents]
  | succ n ih =>
      simp only [pollEvents] at ih
      simp [pollEvents, List.range_succ, Event.isXchg, Event.isWrite, Event.isPoll,
        ih.1, ih.2.1, ih.2.2]

theorem loadTrace_count {σ : Type} (T : Transport σ) (k p : List Byte) (s : σ) :
    (loadTrace T k p s).countP Event.isXchg = p.length + k.length ∧
      (loadTrace T k p s).countP Event.isWrite = 2 ∧
      (loadTrace T k p s).countP Event.isPoll = 0 := by
  have h1 := xchgEvents_count T .plain (T.digitalWrite s LOAD_PIN 1) p
  have h2 := xchgEvents_count T .key (sendBytes T (T.digitalWrite s LOAD_PIN 1) p) k
  simp [loadTrace, List.countP_cons, List.countP_append, Event.isXchg, Event.isWrite,
    Event.isPoll, h1.1, h1.2.1, h1.2.2, h2.1, h2.2.1, h2.2.2]

theorem xchgEvents_length {σ : Type} (T : Transport σ) (site : Site) (s : σ)
    (bs : List Byte) : (xchgEvents T site s bs).length = bs.length := by
  induction bs generalizing s with
  | nil => rfl
  | cons a as ih => simp [xchgEvents, ih]

theorem loadTrace_length {σ : Type} (T : Transport σ) (k p : List Byte) (s : σ) :
    (loadTrace T k p s).length = p.length + k.length + 2 := by
  simp [loadTrace, xchgEvents_length]
  omega

theorem loadTrace_received {σ : Type} (T : Transport σ) (k p : List Byte) (s : σ) :
    received (loadTrace T k p s) =
      recvBytes T (T.digitalWrite s LOAD_PIN 1) p ++
        recvBytes T (sendBytes T (T.digitalWrite s LOAD_PIN 1) p) k := by
  have h1 := xchgEvents_received T .plain (T.digitalWrite s LOAD_PIN 1) p
  have h2 := xchgEvents_received T .key (sendBytes T (T.digitalWrite s LOAD_PIN 1) p) k
  simp only [received] at h1 h2
  simp [loadTrace, received, List.filterMap_append, Event.recv, h1, h2]

/-! ## The claims -/

/-- C1: when DONE reads false `n` times and then true, `encrypt` returns
(after `54 + n` steps, and stays returned), and the transport operations it
issued are exactly: write LOAD=1, the 16 plaintext bytes in index order, the
16 key bytes in index order, write LOAD=0, `n + 1` reads of DONE, 16
exchanges sending `0`; that is 2 pin writes, 48 byte exchanges and `n + 1`
reads, and the `n + 1` operations that follow the write LOAD=0 are the reads
of DONE (the first `n` false, the last true), with no byte exchange among
them. -/
theorem C1_protocol_sequence {σ : Type} (T : Transport σ) (k p c0 : List Byte) (s : σ)
    (hk : k.length = 16) (hp : p.length = 16) (hc : c0.length = 16) (n : Nat)
    (hd : DoneAfter T (loaded T k p s) n) :
    (∀ t, (run T (54 + n + t) (enter k p c0 s)).pc = .done) ∧
    (∀ t, (run T (54 + n + t) (enter k p c0 s)).trace
        = (run T (54 + n) (enter k p c0 s)).trace) ∧
    (run T (54 + n) (enter k p c0 s)).trace.map Event.op =
      [Op.write LOAD_PIN 1] ++ p.map (Op.xchg .plain) ++ k.map (Op.xchg .key) ++
        [Op.write LOAD_PIN 0] ++ List.replicate (n + 1) (Op.poll DONE_PIN) ++
        List.replicate 16 (Op.xchg .read 0) ∧
    (run T (54 + n) (enter k p c0 s)).trace.countP Event.isWrite = 2 ∧
    (run T (54 + n) (enter k p c0 s)).trace.countP Event.isXchg = 48 ∧
    (run T (54 + n) (enter k p c0 s)).trace.countP Event.isPoll = n + 1 ∧
    ((run T (54 + n) (enter k p c0 s)).trace.drop 34).take (n + 1)
      = (List.range (n + 1)).map
          (fun m => Event.poll DONE_PIN (pollVal T (loaded T k p s) m)) := by
  have h := fun t => runWith_done 0 T k p c0 s hk hp hc n hd t
  have h0 := h 0
  rw [Nat.add_zero] at h0
  have c1 := loadTrace_count T k p s
  have c2 := pollEvents_count T (loaded T k p s) (n + 1)
  have c3 := xchgEvents_count T .read (ready T k p s n) (List.replicate 16 0)
  have hlen : (loadTrace T k p s).length = 34 := by rw [loadTrace_length, hk, hp]
  have hpl : (pollEvents T (loaded T k p s) (n + 1)).length = n + 1 := by simp [pollEvents]
  refine ⟨fun t => by simp only [run, h t], fun t => by simp only [run, h t, h0],
    ?_, ?_, ?_, ?_, ?_⟩
  · simp only [run, h0, List.map_append, xchgEvents_op, pollEvents_op, loadTrace,
      List.map_cons, List.map_nil, Event.op, List.map_replicate]
    simp
  · simp only [run, h0, List.countP_append, c1.2.1, c2.2.1, c3.2.1]
  · simp only [run, h0, List.countP_append, c1.1, c2.1, c3.1, hk, hp, List.length_replicate]
  · simp only [run, h0, List.countP_append, c1.2.2, c2.2.2, c3.2.2]
    omega
  · simp only [run, h0, List.append_assoc]
    rw [List.drop_left' hlen, List.take_left' hpl]
    rfl

/-- C2: when DONE eventually reads true, `encrypt` returns with byte `i`
of the output buffer equal to the byte received by the `(33 + i)`-th byte
exchange of the call; the 32 bytes received while loading are dropped. -/
theorem C2_output_is_received {σ : Type} (T : Transport σ) (k p c0 : List Byte) (s : σ)
    (hk : k.length = 16) (hp : p.length = 16) (hc : c0.length = 16) (n : Nat)
    (hd : DoneAfter T (loaded T k p s) n) :
    (run T (54 + n) (enter k p c0 s)).pc = .done ∧
    (received (run T (54 + n) (enter k p c0 s)).trace).length = 48 ∧
    (run T (54 + n) (enter k p c0 s)).cyphertext.length = 16 ∧
    (run T (54 + n) (enter k p c0 s)).cyphertext
      = (received (run T (54 + n) (enter k p c0 s)).trace).drop 32 ∧
    ∀ i, i < 16 → (run T (54 + n) (enter k p c0 s)).cyphertext[i]?
      = (received (run T (54 + n) (enter k p c0 s)).trace)[32 + i]? := by
  have h0 := runWith_done 0 T k p c0 s hk hp hc n hd 0
  rw [Nat.add_zero] at h0
  have hr : received (run T (54 + n) (enter k p c0 s)).trace =
      (recvBytes T (T.digitalWrite s LOAD_PIN 1) p ++
        recvBytes T (sendBytes T (T.digitalWrite s LOAD_PIN 1) p) k) ++
      recvBytes T (ready T k p s n) (List.replicate 16 0) := by
    have e1 := loadTrace_received T k p s
    have e2 := pollEvents_received T (loaded T k p s) (n + 1)
    have e3 := xchgEvents_received T .read (ready T k p s n) (List.replicate 16 0)
    simp only [received] at e1 e2 e3
    simp only [run, h0, received, List.filterMap_append, e1, e2, e3, List.append_nil]
  have hl : (recvBytes T (T.digitalWrite s LOAD_PIN 1) p ++
      recvBytes T (sendBytes T (T.digitalWrite s LOAD_PIN 1) p) k).length = 32 := by
    simp [recvBytes_length, hk, hp]
  have hcy : (run T (54 + n) (enter k p c0 s)).cyphertext
      = recvBytes T (ready T k p s n) (List.replicate 16 0) := by
    simp only [run, h0]
  refine ⟨by simp only [run, h0], ?_, ?_, ?_, ?_⟩
  · rw [hr, List.length_append, hl, recvBytes_length, List.length_replicate]
  · rw [hcy, recvBytes_length, List.length_replicate]
  · rw [hr, hcy, List.drop_left' hl]
  · intro i _
    rw [hr, hcy, List.getElem?_append_right (by omega), hl]
    congr 1
    omega

/-- C6: two calls with the same key and plaintext, each started from the
same transport state on which DONE eventually reads true, both return and
leave the same 16 bytes in their output buffers, whatever the buffers held
before. -/
theorem C6_same_input_same_output {σ : Type} (T : Transport σ) (k p c1 c2 : List Byte) (s : σ)
    (hk : k.length = 16) (hp : p.length = 16) (h1 : c1.length = 16) (h2 : c2.length = 16)
    (n : Nat) (hd : DoneAfter T (loaded T k p s) n) :
    (run T (54 + n) (enter k p c1 s)).pc = .done ∧
    (run T (54 + n) (enter k p c2 s)).pc = .done ∧
    (run T (54 + n) (enter k p c1 s)).cyphertext
      = (run T (54 + n) (enter k p c2 s)).cyphertext ∧
    (run T (54 + n) (enter k p c1 s)).cyphertext.length = 16 := by
  have a := runWith_done 0 T k p c1 s hk hp h1 n hd 0
  have b := runWith_done 0 T k p c2 s hk hp h2 n hd 0
  rw [Nat.add_zero] at a b
  simp only [run, a, b, recvBytes_length, List.length_replicate, and_self]

theorem ordered_snoc {σ : Type} (c : Config σ) (e : Event) (q : PC) (h : Ordered c)
    (he : e.phase = c.pc.phase) (hq : c.pc.phase ≤ q.phase)
    (h0 : c.pc = .loadHigh → e = .write LOAD_PIN 1) (hq0 : q ≠ .loadHigh) :
    (c.trace ++ [e]).Pairwise (fun a b => a.phase ≤ b.phase) ∧
    (∀ x ∈ c.trace ++ [e], x.phase ≤ q.phase) ∧
    ((q = .loadHigh ∧ c.trace ++ [e] = []) ∨
      (q ≠ .loadHigh ∧ ∃ rest, c.trace ++ [e] = .write LOAD_PIN 1 :: rest)) := by
  obtain ⟨h1, h2, h3⟩ := h
  refine ⟨?_, ?_, Or.inr ⟨hq0, ?_⟩⟩
  · rw [List.pairwise_append]
    refine ⟨h1, List.pairwise_singleton _ _, ?_⟩
    intro a ha b hb
    rw [List.mem_singleton] at hb
    subst hb
    rw [he]
    exact h2 a ha
  · intro x hx
    rw [List.mem_append, List.mem_singleton] at hx
    rcases hx with hx | hx
    · exact le_trans (h2 x hx) hq
    · subst hx; rw [he]; exact hq
  · rcases h3 with ⟨hpc, ht⟩ | ⟨_, rest, ht⟩
    · exact ⟨[], by rw [ht, h0 hpc]; rfl⟩
    · exact ⟨rest ++ [e], by rw [ht]; rfl⟩

theorem ordered_skip {σ : Type} (c : Config σ) (q : PC) (h : Ordered c)
    (hq : c.pc.phase ≤ q.phase) (hne : c.pc ≠ .loadHigh) (hq0 : q ≠ .loadHigh) :
    c.trace.Pairwise (fun a b => a.phase ≤ b.phase) ∧
    (∀ x ∈ c.trace, x.phase ≤ q.phase) ∧
    ((q = .loadHigh ∧ c.trace = []) ∨
      (q ≠ .loadHigh ∧ ∃ rest, c.trace = .write LOAD_PIN 1 :: rest)) := by
  obtain ⟨h1, h2, h3⟩ := h
  refine ⟨h1, fun x hx => le_trans (h2 x hx) hq, ?_⟩
  rcases h3 with ⟨hpc, _⟩ | ⟨_, rest, ht⟩
  · exact absurd hpc hne
  · exact Or.inr ⟨hq0, rest, ht⟩

theorem ordered_step {σ : Type} (d : Byte) (T : Transport σ) (c : Config σ)
    (h : Ordered c) : Ordered (stepWith d T c) := by
  rcases hpc : c.pc with _ | _ | _ | _ | _ | _ | _ | _
  · have := ordered_snoc c (.write LOAD_PIN 1) .sendPlain h (by rw [hpc]; rfl)
      (by rw [hpc]; decide) (fun _ => rfl) (by decide)
    simpa [stepWith, hpc, Ordered] using this
  · by_cases hi : c.i < 16
    · rcases hg : c.plaintext[c.i]? with _ | b
      · have := ordered_skip c .fault h (by rw [hpc]; decide) (by rw [hpc]; decide) (by decide)
        simpa [stepWith, hpc, hi, hg, Ordered] using this
      · have := ordered_snoc c (.xchg .plain b (T.spiSendReceive c.hw b).1) .sendPlain h
          (by rw [hpc]; rfl) (by rw [hpc]) (fun e => by rw [hpc] at e; cases e) (by decide)
        simpa [stepWith, hpc, hi, hg, Ordered] using this
    · have := ordered_skip c .sendKey h (by rw [hpc]; decide) (by rw [hpc]; decide) (by decide)
      simpa [stepWith, hpc, hi, Ordered] using this
  · by_cases hi : c.i < 16
    · rcases hg : c.key[c.i]? with _ | b
      · have := ordered_skip c .fault h (by rw [hpc]; decide) (by rw [hpc]; decide) (by decide)
        simpa [stepWith, hpc, hi, hg, Ordered] using this
      · have := ordered_snoc c (.xchg .key b (T.spiSendReceive c.hw b).1) .sendKey h
          (by rw [hpc]; rfl) (by rw [hpc]) (fun e => by rw [hpc] at e; cases e) (by decide)
        simpa [stepWith, hpc, hi, hg, Ordered] using this
    · have := ordered_skip c .loadLow h (by rw [hpc]; decide) (by rw [hpc]; decide) (by decide)
      simpa [stepWith, hpc, hi, Ordered] using this
  · have := ordered_snoc c (.write LOAD_PIN 0) .waitDone h (by rw [hpc]; rfl)
      (by rw [hpc]; decide) (fun e => by rw [hpc] at e; cases e) (by decide)
    simpa [stepWith, hpc, Ordered] using this
  · by_cases hv : (T.digitalRead c.hw DONE_PIN).1 = 0
    · have := ordered_snoc c (.poll DONE_PIN (T.digitalRead c.hw DONE_PIN).1) .waitDone h
        (by rw [hpc]; rfl) (by rw [hpc]) (fun e => by rw [hpc] at e; cases e) (by decide)
      simpa [stepWith, hpc, hv, Ordered] using this
    · have := ordered_snoc c (.poll DONE_PIN (T.digitalRead c.hw DONE_PIN).1) .readCt h
        (by rw [hpc]; rfl) (by rw [hpc]; decide) (fun e => by rw [hpc] at e; cases e) (by decide)
      simpa [stepWith, hpc, hv, Ordered] using this
  · by_cases hi : c.i < 16
    · by_cases hl : c.i < c.cyphertext.length
      · have := ordered_snoc c (.xchg .read d (T.spiSendReceive c.hw d).1) .readCt h
          (by rw [hpc]; rfl) (by rw [hpc]) (fun e => by rw [hpc] at e; cases e) (by decide)
        simpa [stepWith, hpc, hi, hl, Ordered] using this
      · have := ordered_snoc c (.xchg .read d (T.spiSendReceive c.hw d).1) .fault h
          (by rw [hpc]; rfl) (by rw [hpc]; decide) (fun e => by rw [hpc] at e; cases e) (by decide)
        simpa [stepWith, hpc, hi, hl, Ordered] using this
    · have := ordered_skip c .done h (by rw [hpc]; decide) (by rw [hpc]; decide) (by decide)
      simpa [stepWith, hpc, hi, Ordered] using this
  · have : stepWith d T c = c := by simp [stepWith, hpc]
    rw [this]; exact h
  · have : stepWith d T c = c := by simp [stepWith, hpc]
    rw [this]; exact h

theorem ordered_run {σ : Type} (d : Byte) (T : Transport σ) (k p c0 : List Byte) (s : σ)
    (t : Nat) : Ordered (runWith d T t (enter k p c0 s)) := by
  induction t with
  | zero => exact ⟨List.Pairwise.nil, by simp [runWith, enter], Or.inl ⟨rfl, rfl⟩⟩
  | succ t ih => exact ordered_step d T _ ih

theorem phase_lt_index (tr : List Event) (h : tr.Pairwise (fun a b => a.phase ≤ b.phase))
    (a b : Nat) (ea eb : Event) (ha : tr[a]? = some ea) (hb : tr[b]? = some eb)
    (hlt : ea.phase < eb.phase) : a < b := by
  by_contra hnot
  have hba : b ≤ a := Nat.le_of_not_lt hnot
  rcases Nat.eq_or_lt_of_le hba with e | l
  · subst e
    rw [ha] at hb
    cases hb
    exact Nat.lt_irrefl _ hlt
  · obtain ⟨ha1, ha2⟩ := List.getElem?_eq_some_iff.mp ha
    obtain ⟨hb1, hb2⟩ := List.getElem?_eq_some_iff.mp hb
    have := List.pairwise_iff_getElem.mp h b a hb1 ha1 l
    rw [ha2, hb2] at this
    omega

theorem isAt_phase (e : Event) :
    (e.isAt .plain = true → e.phase = 1) ∧ (e.isAt .key = true → e.phase = 2) := by
  rcases e with ⟨p, v⟩ | ⟨p, v⟩ | ⟨st, b, r⟩
  · simp [Event.isAt]
  · simp [Event.isAt]
  · cases st <;> simp [Event.isAt, Event.phase]

/-- C4: at every point of every call of `encrypt` (any buffers, any
transport, whether or not DONE ever reads true), in the operations issued
so far every plaintext byte transfer comes strictly before every key byte
transfer, every plaintext or key transfer comes strictly after the write
that raises LOAD, which is the first operation, and strictly before any
write that lowers LOAD. -/
theorem C4_phase_ordering {σ : Type} (T : Transport σ) (k p c0 : List Byte) (s : σ) (t : Nat) :
    (∀ (a b : Nat) (ea eb : Event), (run T t (enter k p c0 s)).trace[a]? = some ea →
        (run T t (enter k p c0 s)).trace[b]? = some eb →
        ea.isAt .plain = true → eb.isAt .key = true → a < b) ∧
    (∀ (a : Nat) (e : Event), (run T t (enter k p c0 s)).trace[a]? = some e →
        (e.isAt .plain = true ∨ e.isAt .key = true) →
        (run T t (enter k p c0 s)).trace[0]? = some (.write LOAD_PIN 1) ∧ 0 < a) ∧
    (∀ (a b : Nat) (e : Event), (run T t (enter k p c0 s)).trace[a]? = some e →
        (e.isAt .plain = true ∨ e.isAt .key = true) →
        (run T t (enter k p c0 s)).trace[b]? = some (.write LOAD_PIN 0) → a < b) := by
  obtain ⟨h1, _, h3⟩ := ordered_run 0 T k p c0 s t
  unfold run
  refine ⟨?_, ?_, ?_⟩
  · intro a b ea eb ha hb pa pb
    refine phase_lt_index _ h1 a b ea eb ha hb ?_
    rw [(isAt_phase ea).1 pa, (isAt_phase eb).2 pb]
    decide
  · intro a e ha pe
    rcases h3 with ⟨_, hnil⟩ | ⟨_, rest, hcons⟩
    · rw [hnil] at ha
      simp at ha
    · rw [hcons] at ha ⊢
      refine ⟨by simp, ?_⟩
      rcases Nat.eq_zero_or_pos a with e0 | hpos
      · subst e0
        simp only [List.getElem?_cons_zero, Option.some.injEq] at ha
        subst ha
        simp [Event.isAt] at pe
      · exact hpos
  · intro a b e ha pe hb
    refine phase_lt_index _ h1 a b e _ ha hb ?_
    have hph : e.phase = 1 ∨ e.phase = 2 := pe.imp (isAt_phase e).1 (isAt_phase e).2
    have : (Event.write LOAD_PIN 0).phase = 3 := by decide
    omega

/-! ## Frame and bounds -/

theorem step_frame {σ : Type} (d : Byte) (T : Transport σ) (c : Config σ) :
    (stepWith d T c).key = c.key ∧ (stepWith d T c).plaintext = c.plaintext ∧
    ((stepWith d T c).acc = c.acc ∨
      ∃ a : Access, (stepWith d T c).acc = c.acc ++ [a] ∧ a.idx = c.i ∧
        (a.isStore = true ↔ a.buf = .cyphertext) ∧ (a.isStore = true ↔ c.pc = .readCt)) := by
  rcases hpc : c.pc with _ | _ | _ | _ | _ | _ | _ | _
  · simp [stepWith, hpc]
  · by_cases hi : c.i < 16
    · rcases hg : c.plaintext[c.i]? with _ | b <;> simp [stepWith, hpc, hi, hg]
    · simp [stepWith, hpc, hi]
  · by_cases hi : c.i < 16
    · rcases hg : c.key[c.i]? with _ | b <;> simp [stepWith, hpc, hi, hg]
    · simp [stepWith, hpc, hi]
  · simp [stepWith, hpc]
  · by_cases hv : (T.digitalRead c.hw DONE_PIN).1 = 0 <;> simp [stepWith, hpc, hv]
  · by_cases hi : c.i < 16
    · by_cases hl : c.i < c.cyphertext.length <;> simp [stepWith, hpc, hi, hl]
    · simp [stepWith, hpc, hi]
  · simp [stepWith, hpc]
  · simp [stepWith, hpc]

theorem run_frame {σ : Type} (d : Byte) (T : Transport σ) (k p c0 : List Byte) (s : σ)
    (t : Nat) :
    (runWith d T t (enter k p c0 s)).key = k ∧
    (runWith d T t (enter k p c0 s)).plaintext = p ∧
    ∀ a ∈ (runWith d T t (enter k p c0 s)).acc, (a.isStore = true ↔ a.buf = .cyphertext) := by
  induction t with
  | zero => simp [runWith, enter]
  | succ t ih =>
      obtain ⟨h1, h2, h3⟩ := step_frame d T (runWith d T t (enter k p c0 s))
      rw [runWith_succ, h1, h2]
      refine ⟨ih.1, ih.2.1, ?_⟩
      rcases h3 with e | ⟨a, e, _, ha, _⟩
      · rw [e]; exact ih.2.2
      · rw [e]
        intro x hx
        rw [List.mem_append, List.mem_singleton] at hx
        rcases hx with hx | hx
        · exact ih.2.2 x hx
        · subst hx; exact ha

theorem inBounds_step {σ : Type} (d : Byte) (T : Transport σ) (c : Config σ)
    (h : InBounds c) : InBounds (stepWith d T c) := by
  have h' := h
  obtain ⟨hk, hp, hc, hf, ha⟩ := h
  have mem : ∀ (x : Access), c.i < 16 → x.idx = c.i →
      ∀ a : Access, a ∈ c.acc ∨ a = x → a.idx < 16 := by
    intro x hi hx a hmem
    rcases hmem with hm | hm
    · exact ha a hm
    · subst hm; omega
  rcases hpc : c.pc with _ | _ | _ | _ | _ | _ | _ | _
  · simpa [stepWith, hpc, InBounds] using ⟨hk, hp, hc, ha⟩
  · by_cases hi : c.i < 16
    · have hlt : c.i < c.plaintext.length := by omega
      have := mem ⟨.plaintext, false, c.i⟩ hi rfl
      simpa [stepWith, hpc, hi, List.getElem?_eq_getElem hlt, InBounds]
        using ⟨hk, hp, hc, this⟩
    · simpa [stepWith, hpc, hi, InBounds] using ⟨hk, hp, hc, ha⟩
  · by_cases hi : c.i < 16
    · have hlt : c.i < c.key.length := by omega
      have := mem ⟨.key, false, c.i⟩ hi rfl
      simpa [stepWith, hpc, hi, List.getElem?_eq_getElem hlt, InBounds]
        using ⟨hk, hp, hc, this⟩
    · simpa [stepWith, hpc, hi, InBounds] using ⟨hk, hp, hc, ha⟩
  · simpa [stepWith, hpc, InBounds] using ⟨hk, hp, hc, ha⟩
  · by_cases hv : (T.digitalRead c.hw DONE_PIN).1 = 0 <;>
      simpa [stepWith, hpc, hv, InBounds] using ⟨hk, hp, hc, ha⟩
  · by_cases hi : c.i < 16
    · have hlt : c.i < c.cyphertext.length := by omega
      have := mem ⟨.cyphertext, true, c.i⟩ hi rfl
      simpa [stepWith, hpc, hi, hlt, InBounds] using ⟨hk, hp, hc, this⟩
    · simpa [stepWith, hpc, hi, InBounds] using ⟨hk, hp, hc, ha⟩
  · have e : stepWith d T c = c := by simp [stepWith, hpc]
    rw [e]; exact h'
  · exact absurd hpc hf

/-! ## Before DONE reads true -/

theorem stepWith_trace {σ : Type} (d : Byte) (T : Transport σ) (c : Config σ) :
    (stepWith d T c).trace = c.trace ∨ ∃ e, (stepWith d T c).trace = c.trace ++ [e] := by
  rcases hpc : c.pc with _ | _ | _ | _ | _ | _ | _ | _
  · simp [stepWith, hpc]
  · by_cases hi : c.i < 16
    · rcases hg : c.plaintext[c.i]? with _ | b <;> simp [stepWith, hpc, hi, hg]
    · simp [stepWith, hpc, hi]
  · by_cases hi : c.i < 16
    · rcases hg : c.key[c.i]? with _ | b <;> simp [stepWith, hpc, hi, hg]
    · simp [stepWith, hpc, hi]
  · simp [stepWith, hpc]
  · by_cases hv : (T.digitalRead c.hw DONE_PIN).1 = 0 <;> simp [stepWith, hpc, hv]
  · by_cases hi : c.i < 16
    · by_cases hl : c.i < c.cyphertext.length <;> simp [stepWith, hpc, hi, hl]
    · simp [stepWith, hpc, hi]
  · simp [stepWith, hpc]
  · simp [stepWith, hpc]

theorem stepWith_pastWait {σ : Type} (d : Byte) (T : Transport σ) (c : Config σ) :
    (c.pc.pastWait = true → (stepWith d T c).pc.pastWait = true) ∧
    (c.pc.pastWait = false → (stepWith d T c).cyphertext = c.cyphertext) := by
  rcases hpc : c.pc with _ | _ | _ | _ | _ | _ | _ | _
  · simp [stepWith, hpc, PC.pastWait]
  · by_cases hi : c.i < 16
    · rcases hg : c.plaintext[c.i]? with _ | b <;> simp [stepWith, hpc, hi, hg, PC.pastWait]
    · simp [stepWith, hpc, hi, PC.pastWait]
  · by_cases hi : c.i < 16
    · rcases hg : c.key[c.i]? with _ | b <;> simp [stepWith, hpc, hi, hg, PC.pastWait]
    · simp [stepWith, hpc, hi, PC.pastWait]
  · simp [stepWith, hpc, PC.pastWait]
  · by_cases hv : (T.digitalRead c.hw DONE_PIN).1 = 0 <;>
      simp [stepWith, hpc, hv, PC.pastWait]
  · by_cases hi : c.i < 16
    · by_cases hl : c.i < c.cyphertext.length <;> simp [stepWith, hpc, hi, hl, PC.pastWait]
    · simp [stepWith, hpc, hi, PC.pastWait]
  · simp [stepWith, hpc, PC.pastWait]
  · simp [stepWith, hpc, PC.pastWait]

theorem runWith_pastWait_mono {σ : Type} (d : Byte) (T : Transport σ) (c : Config σ)
    (t u : Nat) (h : (runWith d T t c).pc.pastWait = true) :
    (runWith d T (t + u) c).pc.pastWait = true := by
  induction u with
  | zero => exact h
  | succ u ih => exact (stepWith_pastWait d T _).1 ih

theorem runWith_before_wait {σ : Type} (d : Byte) (T : Transport σ) (k p c0 : List Byte)
    (s : σ) (t : Nat) (h : (runWith d T t (enter k p c0 s)).pc.pastWait = false) :
    (runWith d T t (enter k p c0 s)).cyphertext = c0 := by
  induction t with
  | zero => rfl
  | succ t ih =>
      have hprev : (runWith d T t (enter k p c0 s)).pc.pastWait = false := by
        by_contra hne
        have ht := (stepWith_pastWait d T (runWith d T t (enter k p c0 s))).1
          (by simpa using hne)
        rw [runWith_succ, ht] at h
        cases h
      rw [runWith_succ, (stepWith_pastWait d T _).2 hprev]
      exact ih hprev

theorem runWith_xchg_mono {σ : Type} (d : Byte) (T : Transport σ) (c : Config σ)
    (t u : Nat) :
    (runWith d T t c).trace.countP Event.isXchg
      ≤ (runWith d T (t + u) c).trace.countP Event.isXchg := by
  induction u with
  | zero => exact le_refl _
  | succ u ih =>
      refine le_trans ih ?_
      rw [← Nat.add_assoc, runWith_succ]
      rcases stepWith_trace d T (runWith d T (t + u) c) with e | ⟨x, e⟩
      · rw [e]
      · rw [e, List.countP_append]
        exact Nat.le_add_right _ _

/-- C5: if the first `n` reads of DONE all read false then, right after
those `n` reads, `encrypt` is still in its polling loop, has issued exactly
the 32 loading exchanges, and the output buffer is as it was at the call;
the same holds at every earlier point. Hence if DONE never reads true,
`encrypt` never returns, never exchanges a byte beyond the 32 and never
writes the output buffer. -/
theorem C5_no_output_before_done {σ : Type} (T : Transport σ) (k p c0 : List Byte) (s : σ)
    (hk : k.length = 16) (hp : p.length = 16) (n : Nat)
    (h0 : ∀ m, m < n → pollVal T (loaded T k p s) m = 0) :
    (run T (36 + n) (enter k p c0 s)).pc = .waitDone ∧
    (run T (36 + n) (enter k p c0 s)).trace.countP Event.isPoll = n ∧
    (run T (36 + n) (enter k p c0 s)).trace.countP Event.isXchg = 32 ∧
    (run T (36 + n) (enter k p c0 s)).cyphertext = c0 ∧
    (∀ t, t ≤ 36 + n → (run T t (enter k p c0 s)).pc ≠ .done ∧
      (run T t (enter k p c0 s)).cyphertext = c0 ∧
      (run T t (enter k p c0 s)).trace.countP Event.isXchg ≤ 32) ∧
    ((∀ m, pollVal T (loaded T k p s) m = 0) →
      ∀ t, (run T t (enter k p c0 s)).pc ≠ .done ∧
        (run T t (enter k p c0 s)).cyphertext = c0 ∧
        (run T t (enter k p c0 s)).trace.countP Event.isXchg ≤ 32) := by
  have c1 := loadTrace_count T k p s
  have upTo : ∀ n', (∀ m, m < n' → pollVal T (loaded T k p s) m = 0) →
      ∀ t, t ≤ 36 + n' → (run T t (enter k p c0 s)).pc ≠ .done ∧
        (run T t (enter k p c0 s)).cyphertext = c0 ∧
        (run T t (enter k p c0 s)).trace.countP Event.isXchg ≤ 32 := by
    intro n' h' t ht
    have hw := runWith_wait 0 T k p c0 s hk hp n' h'
    have c2 := pollEvents_count T (loaded T k p s) n'
    obtain ⟨u, hu⟩ := Nat.exists_eq_add_of_le ht
    have hpw : (runWith 0 T t (enter k p c0 s)).pc.pastWait = false := by
      by_contra hne
      have := runWith_pastWait_mono 0 T (enter k p c0 s) t u (by simpa using hne)
      rw [← hu, hw] at this
      cases this
    have hcnt := runWith_xchg_mono 0 T (enter k p c0 s) t u
    rw [← hu, hw] at hcnt
    simp only [List.countP_append, c1.1, c2.1, hk, hp] at hcnt
    refine ⟨?_, runWith_before_wait 0 T k p c0 s t hpw, hcnt⟩
    intro hdone
    simp only [run] at hdone
    rw [hdone] at hpw
    cases hpw
  have hw := runWith_wait 0 T k p c0 s hk hp n h0
  have c2 := pollEvents_count T (loaded T k p s) n
  refine ⟨by simp only [run, hw], ?_, ?_, by simp only [run, hw], upTo n h0, ?_⟩
  · simp only [run, hw, List.countP_append, c1.2.2, c2.2.2, Nat.zero_add]
  · simp only [run, hw, List.countP_append, c1.1, c2.1, hk, hp]
  · intro hall t
    exact upTo t (fun m _ => hall m) t (Nat.le_add_left _ _)

/-- C8: at every point of every call of `encrypt`, and after it returns,
the key buffer and the plaintext buffer hold what they held at the call,
every logged store is to the output buffer and every logged access to the
output buffer is a store. -/
theorem C8_inputs_unchanged {σ : Type} (T : Transport σ) (k p c0 : List Byte) (s : σ)
    (t : Nat) :
    (run T t (enter k p c0 s)).key = k ∧
    (run T t (enter k p c0 s)).plaintext = p ∧
    ∀ a ∈ (run T t (enter k p c0 s)).acc, (a.isStore = true ↔ a.buf = .cyphertext) :=
  run_frame 0 T k p c0 s t

/-- C10: when the three buffers hold 16 bytes each, no step of `encrypt`
faults and every access it makes has an index below 16, on every transport;
and when DONE eventually reads true the accesses of the whole call are
exactly: loads of `plaintext[0..15]`, loads of `key[0..15]`, stores to
`cyphertext[0..15]`, each index once and in this order. -/
theorem C10_accesses_in_bounds {σ : Type} (T : Transport σ) (k p c0 : List Byte) (s : σ)
    (hk : k.length = 16) (hp : p.length = 16) (hc : c0.length = 16) :
    (∀ t, (run T t (enter k p c0 s)).pc ≠ .fault ∧
      ∀ a ∈ (run T t (enter k p c0 s)).acc, a.idx < 16) ∧
    (∀ n, DoneAfter T (loaded T k p s) n →
      (run T (54 + n) (enter k p c0 s)).pc = .done ∧
      (run T (54 + n) (enter k p c0 s)).acc =
        (List.range 16).map (fun i => ⟨.plaintext, false, i⟩) ++
        (List.range 16).map (fun i => ⟨.key, false, i⟩) ++
        (List.range 16).map (fun i => ⟨.cyphertext, true, i⟩)) := by
  constructor
  · intro t
    have h : InBounds (runWith 0 T t (enter k p c0 s)) := by
      induction t with
      | zero => exact ⟨hk, hp, hc, by simp [runWith, enter], by simp [runWith, enter]⟩
      | succ t ih => exact inBounds_step 0 T _ ih
    exact ⟨h.2.2.2.1, h.2.2.2.2⟩
  · intro n hd
    have h0 := runWith_done 0 T k p c0 s hk hp hc n hd 0
    rw [Nat.add_zero] at h0
    simp only [run, h0, loadAcc, and_self]

/-! ## The accelerator model -/

theorem aesBlock_kat : aesBlock plaintext key = ct := by decide!

theorem accel_spi_load (L : Nat) (xs so : List Byte) (w : Nat) (v : Bool) (b : Byte) :
    (accel L).spiSendReceive
      { load := true, shiftIn := xs, shiftOut := so, wait := w, valid := v } b
      = (0, { load := true, shiftIn := xs ++ [b], shiftOut := so, wait := w, valid := v }) :=
  rfl

theorem accel_spi_out (L : Nat) (si os : List Byte) (o : Byte) (w : Nat) (v : Bool) (b : Byte) :
    (accel L).spiSendReceive
      { load := false, shiftIn := si, shiftOut := o :: os, wait := w, valid := v } b
      = (o, { load := false, shiftIn := si, shiftOut := os, wait := w, valid := v }) :=
  rfl

theorem accel_sendBytes (L : Nat) (xs bs : List Byte) :
    sendBytes (accel L)
      { load := true, shiftIn := xs, shiftOut := [], wait := 0, valid := false } bs
      = { load := true, shiftIn := xs ++ bs, shiftOut := [], wait := 0, valid := false } := by
  induction bs generalizing xs with
  | nil => simp [sendBytes]
  | cons b bs ih =>
      have h := ih (xs ++ [b])
      simp only [sendBytes] at h
      simp only [sendBytes, List.foldl_cons, accel_spi_load, h, List.append_assoc,
        List.singleton_append]

theorem accel_recvBytes (L w : Nat) (out bs : List Byte) (h : bs.length = out.length) :
    recvBytes (accel L)
      { load := false, shiftIn := [], shiftOut := out, wait := w, valid := true } bs = out := by
  induction bs generalizing out with
  | nil =>
      cases out with
      | nil => rfl
      | cons o os => simp at h
  | cons b bs ih =>
      cases out with
      | nil => simp at h
      | cons o os =>
          have hl : bs.length = os.length := by simpa using h
          simp only [recvBytes, accel_spi_out, ih os hl]

theorem accel_loaded (L : Nat) (a : Accel) :
    loaded (accel L) key plaintext a =
      { load := false, shiftIn := [], shiftOut := ct, wait := L, valid := true } := by
  have h1 : (accel L).digitalWrite a LOAD_PIN 1 =
      { load := true, shiftIn := [], shiftOut := [], wait := 0, valid := false } := by
    simp [accel]
  have h2 : sendBytes (accel L)
      (sendBytes (accel L)
        { load := true, shiftIn := [], shiftOut := [], wait := 0, valid := false } plaintext) key
      = { load := true, shiftIn := plaintext ++ key, shiftOut := [], wait := 0, valid := false } := by
    rw [accel_sendBytes, accel_sendBytes, List.nil_append]
  have h3 : (plaintext ++ key).take 16 = plaintext := by decide
  have h4 : ((plaintext ++ key).drop 16).take 16 = key := by decide
  unfold loaded
  rw [h1, h2]
  simp only [accel, if_true, h3, h4, aesBlock_kat]

theorem accel_pollState (L w : Nat) (out : List Byte) (m : Nat) :
    pollState (accel L) { load := false, shiftIn := [], shiftOut := out, wait := w, valid := true } m
      = { load := false, shiftIn := [], shiftOut := out, wait := w - m, valid := true } := by
  induction m with
  | zero => rfl
  | succ m ih =>
      simp only [pollState, ih]
      by_cases h : w - m = 0
      · have h' : w - (m + 1) = 0 := by omega
        simp [accel, h, h', DONE_PIN]
      · have h' : w - (m + 1) = w - m - 1 := by omega
        simp [accel, h, h', DONE_PIN]

theorem accel_pollVal (L w : Nat) (out : List Byte) (m : Nat) :
    pollVal (accel L) { load := false, shiftIn := [], shiftOut := out, wait := w, valid := true } m
      = if w - m = 0 then 1 else 0 := by
  unfold pollVal
  rw [accel_pollState]
  by_cases h : w - m = 0 <;> simp [accel, h, DONE_PIN]

theorem accel_doneAfter (L : Nat) (a : Accel) :
    DoneAfter (accel L) (loaded (accel L) key plaintext a) L := by
  rw [accel_loaded]
  constructor
  · intro m hm
    rw [accel_pollVal, if_neg (by omega)]
  · rw [accel_pollVal, if_pos (by omega)]
    decide

theorem accel_ready (L : Nat) (a : Accel) :
    ready (accel L) key plaintext a L =
      { load := false, shiftIn := [], shiftOut := ct, wait := 0, valid := true } := by
  unfold ready
  rw [accel_loaded, accel_pollState]
  simp

/-- C3: run against the accelerator model (any latency, any prior
accelerator state, any prior content of the output buffer) with the key and
plaintext constants of the source, `encrypt` returns and the output buffer
holds the reference constant `ct`, the bytes
39 25 84 1D 02 DC 09 FB DC 11 85 97 19 6A 0B 32. -/
theorem C3_known_answer (latency : Nat) (a : Accel) (c0 : List Byte) (hc : c0.length = 16) :
    (run (accel latency) (54 + latency) (enter key plaintext c0 a)).pc = .done ∧
    (run (accel latency) (54 + latency) (enter key plaintext c0 a)).cyphertext = ct ∧
    ct = [0x39, 0x25, 0x84, 0x1D, 0x02, 0xDC, 0x09, 0xFB,
          0xDC, 0x11, 0x85, 0x97, 0x19, 0x6A, 0x0B, 0x32] := by
  have h0 := runWith_done 0 (accel latency) key plaintext c0 a rfl rfl hc latency
    (accel_doneAfter latency a) 0
  rw [Nat.add_zero, accel_ready] at h0
  have hr : recvBytes (accel latency)
      { load := false, shiftIn := [], shiftOut := ct, wait := 0, valid := true }
      (List.replicate 16 0) = ct := accel_recvBytes latency 0 ct _ (by decide)
  refine ⟨by simp only [run, h0], ?_, rfl⟩
  simp only [run, h0, hr]

theorem C3_known_answer_witness :
    (List.replicate 16 (0 : Byte)).length = 16 ∧
    (run (accel 3) (54 + 3) (enter key plaintext (List.replicate 16 0) Accel.idle)).pc = .done ∧
    (run (accel 3) (54 + 3) (enter key plaintext (List.replicate 16 0) Accel.idle)).cyphertext
      = ct ∧
    ct = [0x39, 0x25, 0x84, 0x1D, 0x02, 0xDC, 0x09, 0xFB,
          0xDC, 0x11, 0x85, 0x97, 0x19, 0x6A, 0x0B, 0x32] :=
  ⟨by decide, C3_known_answer 3 Accel.idle (List.replicate 16 0) (by decide)⟩

/-! ## The byte sent while reading -/

theorem aesRounds_length (n : Nat) (st rk : List Nat) (rc : Nat) :
    (aesRounds n st rk rc).length = 16 := by
  induction n generalizing st rk rc with
  | zero => simp [aesRounds, addRoundKey, shiftRows, nextKey]
  | succ n ih => simp only [aesRounds, ih]

theorem aesBlock_length (p k : List Byte) : (aesBlock p k).length = 16 := by
  simp [aesBlock, aes128, aesRounds_length]

theorem accel_loaded_block (L : Nat) (a : Accel) (k p : List Byte)
    (hk : k.length = 16) (hp : p.length = 16) :
    loaded (accel L) k p a =
      { load := false, shiftIn := [], shiftOut := aesBlock p k, wait := L, valid := true } := by
  have h1 : (accel L).digitalWrite a LOAD_PIN 1 =
      { load := true, shiftIn := [], shiftOut := [], wait := 0, valid := false } := by
    simp [accel]
  have h2 : sendBytes (accel L)
      (sendBytes (accel L)
        { load := true, shiftIn := [], shiftOut := [], wait := 0, valid := false } p) k
      = { load := true, shiftIn := p ++ k, shiftOut := [], wait := 0, valid := false } := by
    rw [accel_sendBytes, accel_sendBytes, List.nil_append]
  have h3 : (p ++ k).take 16 = p := List.take_left' hp
  have h4 : ((p ++ k).drop 16).take 16 = k := by
    rw [List.drop_left' hp]
    exact List.take_of_length_le (by omega)
  unfold loaded
  rw [h1, h2]
  simp only [accel, if_true, h3, h4]

theorem accel_doneAfter_block (L : Nat) (a : Accel) (k p : List Byte)
    (hk : k.length = 16) (hp : p.length = 16) :
    DoneAfter (accel L) (loaded (accel L) k p a) L := by
  rw [accel_loaded_block L a k p hk hp]
  constructor
  · intro m hm
    rw [accel_pollVal, if_neg (by omega)]
  · rw [accel_pollVal, if_pos (by omega)]
    decide

theorem accel_ready_block (L : Nat) (a : Accel) (k p : List Byte)
    (hk : k.length = 16) (hp : p.length = 16) :
    ready (accel L) k p a L =
      { load := false, shiftIn := [], shiftOut := aesBlock p k, wait := 0, valid := true } := by
  unfold ready
  rw [accel_loaded_block L a k p hk hp, accel_pollState]
  simp

/-- C9: against the accelerator model, for every key, plaintext, prior
accelerator state, latency, prior output buffer and byte `d`, the call whose
16 read-loop exchanges send `d` and the call as written, which sends `0`,
both return, and with the same 16 output bytes: the AES-128 block of the
plaintext under the key. The byte sent while reading does not change the
ciphertext received. -/
theorem C9_read_phase_determinism (latency : Nat) (a : Accel) (k p c0 : List Byte)
    (hk : k.length = 16) (hp : p.length = 16) (hc : c0.length = 16) (d : Byte) :
    (runWith d (accel latency) (54 + latency) (enter k p c0 a)).pc = .done ∧
    (run (accel latency) (54 + latency) (enter k p c0 a)).pc = .done ∧
    (runWith d (accel latency) (54 + latency) (enter k p c0 a)).cyphertext
      = (run (accel latency) (54 + latency) (enter k p c0 a)).cyphertext ∧
    (runWith d (accel latency) (54 + latency) (enter k p c0 a)).cyphertext = aesBlock p k := by
  have hd := accel_doneAfter_block latency a k p hk hp
  have x := runWith_done d (accel latency) k p c0 a hk hp hc latency hd 0
  have y := runWith_done 0 (accel latency) k p c0 a hk hp hc latency hd 0
  rw [Nat.add_zero, accel_ready_block latency a k p hk hp] at x y
  have hx : recvBytes (accel latency)
      { load := false, shiftIn := [], shiftOut := aesBlock p k, wait := 0, valid := true }
      (List.replicate 16 d) = aesBlock p k :=
    accel_recvBytes latency 0 (aesBlock p k) _ (by simp [aesBlock_length])
  have hy : recvBytes (accel latency)
      { load := false, shiftIn := [], shiftOut := aesBlock p k, wait := 0, valid := true }
      (List.replicate 16 0) = aesBlock p k :=
    accel_recvBytes latency 0 (aesBlock p k) _ (by simp [aesBlock_length])
  simp only [run, x, y, hx, hy, and_self]

theorem C9_read_phase_determinism_witness :
    (key.length = 16 ∧ plaintext.length = 16 ∧ ct.length = 16) ∧
    ((runWith 0xA5 (accel 3) (54 + 3) (enter key plaintext ct Accel.idle)).pc = .done ∧
    (run (accel 3) (54 + 3) (enter key plaintext ct Accel.idle)).pc = .done ∧
    (runWith 0xA5 (accel 3) (54 + 3) (enter key plaintext ct Accel.idle)).cyphertext
      = (run (accel 3) (54 + 3) (enter key plaintext ct Accel.idle)).cyphertext ∧
    (runWith 0xA5 (accel 3) (54 + 3) (enter key plaintext ct Accel.idle)).cyphertext
      = aesBlock plaintext key) :=
  ⟨by decide, C9_read_phase_determinism 3 Accel.idle key plaintext ct (by decide) (by decide)
    (by decide) 0xA5⟩

/-! ## The verdict of the harness -/

/-- C7 (the code departs from the claim): with the reference `ct` of the
source followed in memory by a zero byte and an output buffer that holds the
same 16 bytes followed by a non-zero byte, `printall` prints the failure
verdict; and with a reference and an output that share a zero byte at index
2 and differ afterwards, the verdict is success. -/
theorem C7_strcmp_verdict :
    (ct ++ [1]).take 16 = (ct ++ [0]).take 16 ∧
    verdict (ct ++ [1]) (ct ++ [0]) = some "\nBummer.  Test failed\n" ∧
    ([0x39, 0x25, 0x00, 1, 1, 1, 1, 1, 1, 1, 1, 1, 1, 1, 1, 1] : List Byte)
      ≠ [0x39, 0x25, 0x00, 2, 2, 2, 2, 2, 2, 2, 2, 2, 2, 2, 2, 2] ∧
    verdict [0x39, 0x25, 0x00, 1, 1, 1, 1, 1, 1, 1, 1, 1, 1, 1, 1, 1]
      [0x39, 0x25, 0x00, 2, 2, 2, 2, 2, 2, 2, 2, 2, 2, 2, 2, 2] = some "\nSuccess!\n" := by
  decide

/-! ## Instances on concrete transports -/

theorem C1_protocol_sequence_witness :
    DoneAfter loopback (loaded loopback key plaintext 0) 2 ∧
    ((∀ t, (run loopback (54 + 2 + t) (enter key plaintext ct 0)).pc = .done) ∧
    (∀ t, (run loopback (54 + 2 + t) (enter key plaintext ct 0)).trace
        = (run loopback (54 + 2) (enter key plaintext ct 0)).trace) ∧
    (run loopback (54 + 2) (enter key plaintext ct 0)).trace.map Event.op =
      [Op.write LOAD_PIN 1] ++ plaintext.map (Op.xchg .plain) ++ key.map (Op.xchg .key) ++
        [Op.write LOAD_PIN 0] ++ List.replicate (2 + 1) (Op.poll DONE_PIN) ++
        List.replicate 16 (Op.xchg .read 0) ∧
    (run loopback (54 + 2) (enter key plaintext ct 0)).trace.countP Event.isWrite = 2 ∧
    (run loopback (54 + 2) (enter key plaintext ct 0)).trace.countP Event.isXchg = 48 ∧
    (run loopback (54 + 2) (enter key plaintext ct 0)).trace.countP Event.isPoll = 2 + 1 ∧
    ((run loopback (54 + 2) (enter key plaintext ct 0)).trace.drop 34).take (2 + 1)
      = (List.range (2 + 1)).map
          (fun m => Event.poll DONE_PIN (pollVal loopback (loaded loopback key plaintext 0) m))) :=
  ⟨by decide, C1_protocol_sequence loopback key plaintext ct 0 (by decide) (by decide)
    (by decide) 2 (by decide)⟩

theorem C2_output_is_received_witness :
    DoneAfter loopback (loaded loopback key plaintext 0) 2 ∧
    ((run loopback (54 + 2) (enter key plaintext ct 0)).pc = .done ∧
    (received (run loopback (54 + 2) (enter key plaintext ct 0)).trace).length = 48 ∧
    (run loopback (54 + 2) (enter key plaintext ct 0)).cyphertext.length = 16 ∧
    (run loopback (54 + 2) (enter key plaintext ct 0)).cyphertext
      = (received (run loopback (54 + 2) (enter key plaintext ct 0)).trace).drop 32 ∧
    ∀ i, i < 16 → (run loopback (54 + 2) (enter key plaintext ct 0)).cyphertext[i]?
      = (received (run loopback (54 + 2) (enter key plaintext ct 0)).trace)[32 + i]?) :=
  ⟨by decide, C2_output_is_received loopback key plaintext ct 0 (by decide) (by decide)
    (by decide) 2 (by decide)⟩

theorem C5_no_output_before_done_witness :
    (∀ m, m < 3 → pollVal silent (loaded silent key plaintext ()) m = 0) ∧
    ((run silent (36 + 3) (enter key plaintext ct ())).pc = .waitDone ∧
    (run silent (36 + 3) (enter key plaintext ct ())).trace.countP Event.isPoll = 3 ∧
    (run silent (36 + 3) (enter key plaintext ct ())).trace.countP Event.isXchg = 32 ∧
    (run silent (36 + 3) (enter key plaintext ct ())).cyphertext = ct ∧
    (∀ t, t ≤ 36 + 3 → (run silent t (enter key plaintext ct ())).pc ≠ .done ∧
      (run silent t (enter key plaintext ct ())).cyphertext = ct ∧
      (run silent t (enter key plaintext ct ())).trace.countP Event.isXchg ≤ 32) ∧
    ((∀ m, pollVal silent (loaded silent key plaintext ()) m = 0) →
      ∀ t, (run silent t (enter key plaintext ct ())).pc ≠ .done ∧
        (run silent t (enter key plaintext ct ())).cyphertext = ct ∧
        (run silent t (enter key plaintext ct ())).trace.countP Event.isXchg ≤ 32)) :=
  ⟨fun _ _ => rfl, C5_no_output_before_done silent key plaintext ct () (by decide) (by decide) 3
    (fun _ _ => rfl)⟩

theorem C6_same_input_same_output_witness :
    DoneAfter loopback (loaded loopback key plaintext 0) 2 ∧
    ((run loopback (54 + 2) (enter key plaintext ct 0)).pc = .done ∧
    (run loopback (54 + 2) (enter key plaintext (List.replicate 16 0xFF) 0)).pc = .done ∧
    (run loopback (54 + 2) (enter key plaintext ct 0)).cyphertext
      = (run loopback (54 + 2) (enter key plaintext (List.replicate 16 0xFF) 0)).cyphertext ∧
    (run loopback (54 + 2) (enter key plaintext ct 0)).cyphertext.length = 16) :=
  ⟨by decide, C6_same_input_same_output loopback key plaintext ct (List.replicate 16 0xFF) 0
    (by decide) (by decide) (by decide) (by decide) 2 (by decide)⟩

theorem C10_accesses_in_bounds_witness :
    (key.length = 16 ∧ plaintext.length = 16 ∧ ct.length = 16) ∧
    ((∀ t, (run loopback t (enter key plaintext ct 0)).pc ≠ .fault ∧
      ∀ a ∈ (run loopback t (enter key plaintext ct 0)).acc, a.idx < 16) ∧
    (∀ n, DoneAfter loopback (loaded loopback key plaintext 0) n →
      (run loopback (54 + n) (enter key plaintext ct 0)).pc = .done ∧
      (run loopback (54 + n) (enter key plaintext ct 0)).acc =
        (List.range 16).map (fun i => ⟨.plaintext, false, i⟩) ++
        (List.range 16).map (fun i => ⟨.key, false, i⟩) ++
        (List.range 16).map (fun i => ⟨.cyphertext, true, i⟩))) :=
  ⟨by decide, C10_accesses_in_bounds loopback key plaintext ct 0 (by decide) (by decide)
    (by decide)⟩

end Lab7
